import Mathlib

/-!
# The 8250 serial port driver (`uart.c`)

A shallow embedding of `uartinit`, `uartputc` and `uartgetc`.  The driver's
only state is the flag `uart`; every effect on the outside world (port
writes, port reads, delays, the interrupt registration) is appended to a
trace, oldest event first.  The device is an arbitrary function from the
history of events and a port number to the value a read returns.
-/

namespace Uart

/-- The base port of the first serial controller: `#define COM1 0x3f8`. -/
def COM1 : Nat := 0x3f8

/-- The externally visible effects of the driver, in the order they happen. -/
inductive Event where
  | outb (port : Nat) (data : Nat)
  | inb (port : Nat) (val : Nat)
  | microdelay (us : Nat)
  | ioapicenable (irq : Nat) (cpu : Nat)
  deriving DecidableEq, Repr

/-- The collaborators of the driver that are declared in headers outside
`uart.c`: the constant `IRQ_COM1` (from `traps.h`) and the hardware behind
the port-read primitive.  `dev h p` is what the hardware answers to a read of
port `p` after the history `h`; it may depend on everything that happened
before. -/
structure Machine where
  IRQ_COM1 : Nat
  dev : List Event → Nat → Nat

/-- The driver state: `static int uart` together with the trace of effects. -/
structure State where
  uart : Int
  trace : List Event
  deriving DecidableEq, Repr

/-- Modelled from the spec: the byte-level port write primitive `outb` of
`x86.h` (registers are single-byte wide, so the `int` argument is truncated
to eight bits). -/
def outb (port : Nat) (data : Int) (s : State) : State :=
  { s with trace := s.trace ++ [Event.outb port (data % 256).toNat] }

/-- Modelled from the spec: the byte-level port read primitive `inb` of
`x86.h`; the value read is a single byte. -/
def inb (m : Machine) (port : Nat) (s : State) : Nat × State :=
  (m.dev s.trace port % 256,
   { s with trace := s.trace ++ [Event.inb port (m.dev s.trace port % 256)] })

/-- Modelled from the spec: the busy-wait delay primitive `microdelay`. -/
def microdelay (us : Nat) (s : State) : State :=
  { s with trace := s.trace ++ [Event.microdelay us] }

/-- Modelled from the spec: the interrupt-line registration `ioapicenable`. -/
def ioapicenable (irq : Nat) (cpu : Nat) (s : State) : State :=
  { s with trace := s.trace ++ [Event.ioapicenable irq cpu] }

/-- The loop `for(i = 0; i < 128 && !(inb(COM1+5) & 0x20); i++) microdelay(10);`
of `uartputc`, entered with the counter at `i`. -/
def uartputc_loop (m : Machine) (i : Nat) (s : State) : State :=
  if i < 128 then
    if (inb m (COM1 + 5) s).1 &&& 0x20 = 0 then
      uartputc_loop m (i + 1) (microdelay 10 (inb m (COM1 + 5) s).2)
    else (inb m (COM1 + 5) s).2
  else s
termination_by 128 - i

/-- The function `void uartputc(int c)`: nothing without a UART; otherwise wait
for the transmitter, at most 128 polls, then write the byte. -/
def uartputc (m : Machine) (c : Int) (s : State) : State :=
  if s.uart = 0 then s
  else outb (COM1 + 0) c (uartputc_loop m 0 s)

/-- The function `static int uartgetc(void)`: -1 without a UART or without
data; otherwise the byte read from offset +0. -/
def uartgetc (m : Machine) (s : State) : Int × State :=
  if s.uart = 0 then (-1, s)
  else if (inb m (COM1 + 5) s).1 &&& 0x01 = 0 then (-1, (inb m (COM1 + 5) s).2)
  else (((inb m (COM1 + 0) (inb m (COM1 + 5) s).2).1 : Int),
        (inb m (COM1 + 0) (inb m (COM1 + 5) s).2).2)

/-- The string literal `"xv6...\n"` as it lies in memory, with its
terminating NUL. -/
def banner : List Int :=
  [('x'.toNat : Int), ('v'.toNat : Int), ('6'.toNat : Int), ('.'.toNat : Int),
   ('.'.toNat : Int), ('.'.toNat : Int), ('\n'.toNat : Int), 0]

/-- The loop `for(p="xv6...\n"; *p; p++) uartputc(*p);` of `uartinit`, with
`p` pointing at the given characters. -/
def uartinit_announce (m : Machine) : List Int → State → State
  | [], s => s
  | c :: p, s => if c = 0 then s else uartinit_announce m p (uartputc m c s)

/-- The part of `uartinit` before the probe: the seven configuration writes. -/
def uartinit_config (s : State) : State :=
  outb (COM1 + 1) 0x01
    (outb (COM1 + 4) 0
      (outb (COM1 + 3) 0x03
        (outb (COM1 + 1) 0
          (outb (COM1 + 0) (115200 / 9600)
            (outb (COM1 + 3) 0x80
              (outb (COM1 + 2) 0 s))))))

/-- The function `void uartinit(void)`: configuration, probe, and on a present
UART the flag, the acknowledgement reads, the interrupt registration and the
banner. -/
def uartinit (m : Machine) (s : State) : State :=
  let s1 := uartinit_config s
  if (inb m (COM1 + 5) s1).1 = 0xFF then (inb m (COM1 + 5) s1).2
  else
    let s2 := { (inb m (COM1 + 5) s1).2 with uart := 1 }
    let s3 := (inb m (COM1 + 2) s2).2
    let s4 := (inb m (COM1 + 0) s3).2
    let s5 := ioapicenable m.IRQ_COM1 0 s4
    uartinit_announce m banner s5

/-- The three operations of the driver, as a caller may issue them. -/
inductive Op where
  | uartinit
  | uartputc (c : Int)
  | uartgetc
  deriving DecidableEq, Repr

/-- The effect of one operation on the driver state. -/
def step (m : Machine) : Op → State → State
  | Op.uartinit, s => uartinit m s
  | Op.uartputc c, s => uartputc m c s
  | Op.uartgetc, s => (uartgetc m s).2

/-- The effect of a sequence of operations, issued one after the other. -/
def run (m : Machine) : List Op → State → State
  | [], s => s
  | o :: ops, s => run m ops (step m o s)

/-! ## Observations on traces -/

/-- The events a call added to the trace: what `s1` has beyond `s0`. -/
def callTrace (s0 s1 : State) : List Event :=
  s1.trace.drop s0.trace.length

/-- The seven configuration writes of `uartinit`, in order. -/
def configTrace : List Event :=
  [Event.outb (COM1 + 2) 0x00, Event.outb (COM1 + 3) 0x80, Event.outb (COM1 + 0) 0x0C,
   Event.outb (COM1 + 1) 0x00, Event.outb (COM1 + 3) 0x03, Event.outb (COM1 + 4) 0x00,
   Event.outb (COM1 + 1) 0x01]

/-- The events of one failed poll of `uartputc` begun at history `t`: the
status read and the delay that follows it. -/
def pollStep (m : Machine) (t : List Event) : List Event :=
  [Event.inb (COM1 + 5) (m.dev t (COM1 + 5) % 256), Event.microdelay 10]

/-- The events of `j` consecutive failed polls begun at history `t`. -/
def polls (m : Machine) (t : List Event) : Nat → List Event
  | 0 => []
  | j + 1 => pollStep m t ++ polls m (t ++ pollStep m t) j

/-- The value the device returns to status read number `j` (counted from 0)
of a transmit begun at history `t`, the `j` earlier reads each having been
followed by `microdelay(10)`. -/
def pollVal (m : Machine) (t : List Event) : Nat → Nat
  | 0 => m.dev t (COM1 + 5) % 256
  | j + 1 => pollVal m (t ++ pollStep m t) j

/-- The events of the acknowledgement step of `uartinit` begun at history
`t`: the reads of offsets +2 and +0 and the interrupt registration. -/
def ackTrace (m : Machine) (t : List Event) : List Event :=
  [Event.inb (COM1 + 2) (m.dev t (COM1 + 2) % 256),
   Event.inb (COM1 + 0)
     (m.dev (t ++ [Event.inb (COM1 + 2) (m.dev t (COM1 + 2) % 256)]) (COM1 + 0) % 256),
   Event.ioapicenable m.IRQ_COM1 0]

/-- The final status read of the wait loop after `k` failed polls, when the
loop was entered with room for `n` polls: present iff `k < n`. -/
def lastPoll (m : Machine) (t : List Event) (n k : Nat) : List Event :=
  if k < n then [Event.inb (COM1 + 5) (pollVal m t k)] else []

/-- The values returned by the reads of port `p` in a trace, in order. -/
def readsOf (p : Nat) (tr : List Event) : List Nat :=
  tr.filterMap fun e =>
    match e with
    | Event.inb q v => if q = p then some v else none
    | _ => none

/-- The bytes written to port `p` in a trace, in order. -/
def writesTo (p : Nat) (tr : List Event) : List Nat :=
  tr.filterMap fun e =>
    match e with
    | Event.outb q d => if q = p then some d else none
    | _ => none

/-- The arguments of the delay calls in a trace, in order. -/
def delaysOf (tr : List Event) : List Nat :=
  tr.filterMap fun e =>
    match e with
    | Event.microdelay us => some us
    | _ => none

/-- Port reads of a trace (port and value), in order. -/
def portReads (tr : List Event) : List (Nat × Nat) :=
  tr.filterMap fun e =>
    match e with
    | Event.inb q v => some (q, v)
    | _ => none

/-- Port writes of a trace (port and byte), in order. -/
def portWrites (tr : List Event) : List (Nat × Nat) :=
  tr.filterMap fun e =>
    match e with
    | Event.outb q d => some (q, d)
    | _ => none

/-- Interrupt registrations of a trace (line and cpu), in order. -/
def irqRegs (tr : List Event) : List (Nat × Nat) :=
  tr.filterMap fun e =>
    match e with
    | Event.ioapicenable i c => some (i, c)
    | _ => none

/-- The register an event touches and the direction (`true` for a write);
`none` for events that are not port accesses. -/
def access : Event → Option (Nat × Bool)
  | Event.outb p _ => some (p, true)
  | Event.inb p _ => some (p, false)
  | _ => none

/-- The divisor-latch state after an event: bit 7 of the value written, for
a write to the Line-Control-Register (+3); unchanged otherwise. -/
def latchAfter (latch : Bool) : Event → Bool
  | Event.outb p d => if p = COM1 + 3 then decide (d &&& 0x80 ≠ 0) else latch
  | _ => latch

/-- The divisor-latch state after a whole trace. -/
def latchRun (latch : Bool) : List Event → Bool
  | [] => latch
  | e :: tr => latchRun (latchAfter latch e) tr

/-- Each event of a trace paired with the latch state in force when it
happens. -/
def latchMarks (latch : Bool) : List Event → List (Bool × Event)
  | [] => []
  | e :: tr => (latch, e) :: latchMarks (latchAfter latch e) tr

/-- The events that happen while the latch is set: set when the event
starts and still set when it is over. -/
def whileLatched (latch : Bool) : List Event → List Event
  | [] => []
  | e :: tr =>
    if latch && latchAfter latch e then e :: whileLatched (latchAfter latch e) tr
    else whileLatched (latchAfter latch e) tr

/-! ## Concrete devices -/

/-- No UART behind the ports: every read floats to 0xFF. -/
def absentMachine : Machine := ⟨4, fun _ _ => 0xFF⟩

/-- A UART whose status is always 0x60 (transmitter empty, no data) and
whose other registers read 0. -/
def idleMachine : Machine := ⟨4, fun _ p => if p = COM1 + 5 then 0x60 else 0⟩

/-- A UART whose transmitter never becomes empty: status always 0x00. -/
def busyMachine : Machine := ⟨4, fun _ _ => 0⟩

/-- A UART with a byte waiting: status always 0x61, every other read 0xFF. -/
def dataMachine : Machine := ⟨4, fun _ p => if p = COM1 + 5 then 0x61 else 0xFF⟩

/-- A UART that answers the first probe with 0x60 and floats to 0xFF from
then on (unplugged after the first eight events). -/
def unpluggedMachine : Machine := ⟨4, fun h _ => if h.length < 8 then 0x60 else 0xFF⟩

/-- A UART whose transmitter becomes empty at the third status read of a
transmit begun on an empty history. -/
def slowMachine : Machine := ⟨4, fun h _ => if h.length < 4 then 0 else 0x20⟩

/-! ## Basic facts about the primitives -/

@[simp]
theorem outb_uart (p : Nat) (d : Int) (s : State) : (outb p d s).uart = s.uart := rfl

@[simp]
theorem outb_trace (p : Nat) (d : Int) (s : State) :
    (outb p d s).trace = s.trace ++ [Event.outb p (d % 256).toNat] := rfl

@[simp]
theorem inb_uart (m : Machine) (p : Nat) (s : State) :
    (inb m p s).2.uart = s.uart := rfl

@[simp]
theorem inb_trace (m : Machine) (p : Nat) (s : State) :
    (inb m p s).2.trace = s.trace ++ [Event.inb p (m.dev s.trace p % 256)] := rfl

@[simp]
theorem inb_val (m : Machine) (p : Nat) (s : State) :
    (inb m p s).1 = m.dev s.trace p % 256 := rfl

@[simp]
theorem microdelay_uart (us : Nat) (s : State) : (microdelay us s).uart = s.uart := rfl

@[simp]
theorem microdelay_trace (us : Nat) (s : State) :
    (microdelay us s).trace = s.trace ++ [Event.microdelay us] := rfl

@[simp]
theorem ioapicenable_uart (i c : Nat) (s : State) :
    (ioapicenable i c s).uart = s.uart := rfl

@[simp]
theorem ioapicenable_trace (i c : Nat) (s : State) :
    (ioapicenable i c s).trace = s.trace ++ [Event.ioapicenable i c] := rfl

theorem callTrace_append (s0 s1 : State) (x : List Event) (h : s1.trace = s0.trace ++ x) :
    callTrace s0 s1 = x := by
  simp [callTrace, h]

theorem uartinit_config_uart (s : State) : (uartinit_config s).uart = s.uart := rfl

theorem uartinit_config_trace (s : State) :
    (uartinit_config s).trace = s.trace ++ configTrace := by
  simp [uartinit_config, configTrace]

/-! ## The wait loop of `uartputc` -/

theorem uartputc_loop_spec (m : Machine) (n : Nat) :
    ∀ (i : Nat) (s : State), i + n = 128 →
      ∃ k, k ≤ n ∧ (∀ j, j < k → pollVal m s.trace j &&& 0x20 = 0) ∧
        (k < n → pollVal m s.trace k &&& 0x20 ≠ 0) ∧
        (uartputc_loop m i s).uart = s.uart ∧
        (uartputc_loop m i s).trace
          = s.trace ++ (polls m s.trace k ++ lastPoll m s.trace n k) := by
  induction n with
  | zero =>
    intro i s h
    refine ⟨0, le_refl _, ?_, ?_, ?_, ?_⟩
    · intro j hj; omega
    · intro hk; omega
    · rw [uartputc_loop]; simp [show ¬ i < 128 by omega]
    · rw [uartputc_loop]; simp [show ¬ i < 128 by omega, polls, lastPoll]
  | succ n ih =>
    intro i s h
    have hi : i < 128 := by omega
    by_cases hv : m.dev s.trace (COM1 + 5) % 256 &&& 0x20 = 0
    · obtain ⟨k, hk, hfail, hready, hu, ht⟩ :=
        ih (i + 1) (microdelay 10 (inb m (COM1 + 5) s).2) (by omega)
      have htr : (microdelay 10 (inb m (COM1 + 5) s).2).trace
          = s.trace ++ pollStep m s.trace := by
        simp [pollStep]
      rw [htr] at hfail hready ht
      refine ⟨k + 1, by omega, ?_, ?_, ?_, ?_⟩
      · intro j hj
        cases j with
        | zero => simpa [pollVal] using hv
        | succ j => simpa [pollVal] using hfail j (by omega)
      · intro hk1
        simpa [pollVal] using hready (by omega)
      · rw [uartputc_loop]; simp only [hi, if_true, inb_val, hv]
        simpa using hu
      · rw [uartputc_loop]; simp only [hi, if_true, inb_val, hv]
        rw [ht]
        simp [polls, lastPoll, pollVal, List.append_assoc]
    · refine ⟨0, by omega, ?_, ?_, ?_, ?_⟩
      · intro j hj; omega
      · intro _; simpa [pollVal] using hv
      · rw [uartputc_loop]; simp [hi, hv]
      · rw [uartputc_loop]; simp [hi, hv, polls, lastPoll, pollVal]

/-- The shape of every transmit on a present UART: `k ≤ 128` failed polls,
the ready poll when `k < 128`, then the write of the byte. -/
theorem uartputc_spec (m : Machine) (c : Int) (s : State) (h : s.uart ≠ 0) :
    ∃ k, k ≤ 128 ∧ (∀ j, j < k → pollVal m s.trace j &&& 0x20 = 0) ∧
      (k < 128 → pollVal m s.trace k &&& 0x20 ≠ 0) ∧
      (uartputc m c s).uart = s.uart ∧
      (uartputc m c s).trace
        = s.trace ++ (polls m s.trace k ++ lastPoll m s.trace 128 k
            ++ [Event.outb COM1 (c % 256).toNat]) := by
  obtain ⟨k, hk, hfail, hready, hu, ht⟩ := uartputc_loop_spec m 128 0 s (by omega)
  refine ⟨k, hk, hfail, hready, ?_, ?_⟩
  · simp [uartputc, h, hu]
  · simp [uartputc, h, ht, List.append_assoc]

theorem uartputc_absent (m : Machine) (c : Int) (s : State) (h : s.uart = 0) :
    uartputc m c s = s := by
  simp [uartputc, h]

theorem uartputc_uart (m : Machine) (c : Int) (s : State) : (uartputc m c s).uart = s.uart := by
  by_cases h : s.uart = 0
  · rw [uartputc_absent m c s h]
  · obtain ⟨k, _, _, _, hu, _⟩ := uartputc_spec m c s h
    exact hu

/-! ## Observations on the events of the wait loop -/

@[simp]
theorem readsOf_nil (p : Nat) : readsOf p [] = [] := rfl

@[simp]
theorem readsOf_append (p : Nat) (a b : List Event) :
    readsOf p (a ++ b) = readsOf p a ++ readsOf p b := by
  simp [readsOf]

@[simp]
theorem readsOf_inb (p q v : Nat) (tr : List Event) :
    readsOf p (Event.inb q v :: tr) = if q = p then v :: readsOf p tr else readsOf p tr := by
  by_cases h : q = p <;> simp [readsOf, h]

@[simp]
theorem readsOf_outb (p q d : Nat) (tr : List Event) :
    readsOf p (Event.outb q d :: tr) = readsOf p tr := by
  simp [readsOf]

@[simp]
theorem readsOf_microdelay (p us : Nat) (tr : List Event) :
    readsOf p (Event.microdelay us :: tr) = readsOf p tr := by
  simp [readsOf]

@[simp]
theorem readsOf_ioapicenable (p i c : Nat) (tr : List Event) :
    readsOf p (Event.ioapicenable i c :: tr) = readsOf p tr := by
  simp [readsOf]

@[simp]
theorem writesTo_nil (p : Nat) : writesTo p [] = [] := rfl

@[simp]
theorem writesTo_append (p : Nat) (a b : List Event) :
    writesTo p (a ++ b) = writesTo p a ++ writesTo p b := by
  simp [writesTo]

@[simp]
theorem writesTo_outb (p q d : Nat) (tr : List Event) :
    writesTo p (Event.outb q d :: tr) = if q = p then d :: writesTo p tr else writesTo p tr := by
  by_cases h : q = p <;> simp [writesTo, h]

@[simp]
theorem writesTo_inb (p q v : Nat) (tr : List Event) :
    writesTo p (Event.inb q v :: tr) = writesTo p tr := by
  simp [writesTo]

@[simp]
theorem writesTo_microdelay (p us : Nat) (tr : List Event) :
    writesTo p (Event.microdelay us :: tr) = writesTo p tr := by
  simp [writesTo]

@[simp]
theorem writesTo_ioapicenable (p i c : Nat) (tr : List Event) :
    writesTo p (Event.ioapicenable i c :: tr) = writesTo p tr := by
  simp [writesTo]

@[simp]
theorem delaysOf_nil : delaysOf [] = [] := rfl

@[simp]
theorem delaysOf_append (a b : List Event) :
    delaysOf (a ++ b) = delaysOf a ++ delaysOf b := by
  simp [delaysOf]

@[simp]
theorem delaysOf_microdelay (us : Nat) (tr : List Event) :
    delaysOf (Event.microdelay us :: tr) = us :: delaysOf tr := by
  simp [delaysOf]

@[simp]
theorem delaysOf_inb (q v : Nat) (tr : List Event) :
    delaysOf (Event.inb q v :: tr) = delaysOf tr := by
  simp [delaysOf]

@[simp]
theorem delaysOf_outb (q d : Nat) (tr : List Event) :
    delaysOf (Event.outb q d :: tr) = delaysOf tr := by
  simp [delaysOf]

@[simp]
theorem delaysOf_ioapicenable (i c : Nat) (tr : List Event) :
    delaysOf (Event.ioapicenable i c :: tr) = delaysOf tr := by
  simp [delaysOf]

@[simp]
theorem portWrites_nil : portWrites [] = [] := rfl

@[simp]
theorem portWrites_append (a b : List Event) :
    portWrites (a ++ b) = portWrites a ++ portWrites b := by
  simp [portWrites]

@[simp]
theorem portWrites_outb (q d : Nat) (tr : List Event) :
    portWrites (Event.outb q d :: tr) = (q, d) :: portWrites tr := by
  simp [portWrites]

@[simp]
theorem portWrites_inb (q v : Nat) (tr : List Event) :
    portWrites (Event.inb q v :: tr) = portWrites tr := by
  simp [portWrites]

@[simp]
theorem portWrites_microdelay (us : Nat) (tr : List Event) :
    portWrites (Event.microdelay us :: tr) = portWrites tr := by
  simp [portWrites]

@[simp]
theorem portWrites_ioapicenable (i c : Nat) (tr : List Event) :
    portWrites (Event.ioapicenable i c :: tr) = portWrites tr := by
  simp [portWrites]

@[simp]
theorem portReads_nil : portReads [] = [] := rfl

@[simp]
theorem portReads_append (a b : List Event) :
    portReads (a ++ b) = portReads a ++ portReads b := by
  simp [portReads]

@[simp]
theorem portReads_inb (q v : Nat) (tr : List Event) :
    portReads (Event.inb q v :: tr) = (q, v) :: portReads tr := by
  simp [portReads]

@[simp]
theorem portReads_outb (q d : Nat) (tr : List Event) :
    portReads (Event.outb q d :: tr) = portReads tr := by
  simp [portReads]

@[simp]
theorem portReads_microdelay (us : Nat) (tr : List Event) :
    portReads (Event.microdelay us :: tr) = portReads tr := by
  simp [portReads]

@[simp]
theorem portReads_ioapicenable (i c : Nat) (tr : List Event) :
    portReads (Event.ioapicenable i c :: tr) = portReads tr := by
  simp [portReads]

@[simp]
theorem irqRegs_nil : irqRegs [] = [] := rfl

@[simp]
theorem irqRegs_append (a b : List Event) :
    irqRegs (a ++ b) = irqRegs a ++ irqRegs b := by
  simp [irqRegs]

@[simp]
theorem irqRegs_ioapicenable (i c : Nat) (tr : List Event) :
    irqRegs (Event.ioapicenable i c :: tr) = (i, c) :: irqRegs tr := by
  simp [irqRegs]

@[simp]
theorem irqRegs_inb (q v : Nat) (tr : List Event) :
    irqRegs (Event.inb q v :: tr) = irqRegs tr := by
  simp [irqRegs]

@[simp]
theorem irqRegs_outb (q d : Nat) (tr : List Event) :
    irqRegs (Event.outb q d :: tr) = irqRegs tr := by
  simp [irqRegs]

@[simp]
theorem irqRegs_microdelay (us : Nat) (tr : List Event) :
    irqRegs (Event.microdelay us :: tr) = irqRegs tr := by
  simp [irqRegs]

theorem readsOf_polls (m : Machine) (k : Nat) :
    ∀ t, (readsOf (COM1 + 5) (polls m t k)).length = k := by
  induction k with
  | zero => intro t; simp [polls]
  | succ k ih =>
    intro t
    rw [polls, readsOf_append, List.length_append, ih]
    simp [pollStep]; omega

theorem delaysOf_polls (m : Machine) (k : Nat) :
    ∀ t, delaysOf (polls m t k) = List.replicate k 10 := by
  induction k with
  | zero => intro t; simp [polls]
  | succ k ih =>
    intro t
    rw [polls, delaysOf_append, ih]
    simp [pollStep, List.replicate_succ]

theorem portWrites_polls (m : Machine) (k : Nat) :
    ∀ t, portWrites (polls m t k) = [] := by
  induction k with
  | zero => intro t; simp [polls]
  | succ k ih =>
    intro t
    rw [polls, portWrites_append, ih]
    simp [pollStep]

theorem mem_polls (m : Machine) (k : Nat) :
    ∀ t e, e ∈ polls m t k → (∃ v, e = Event.inb (COM1 + 5) v) ∨ e = Event.microdelay 10 := by
  induction k with
  | zero => intro t e he; simp [polls] at he
  | succ k ih =>
    intro t e he
    simp only [polls, List.mem_append] at he
    rcases he with he | he
    · simp only [pollStep, List.mem_cons, List.mem_singleton, List.not_mem_nil, or_false] at he
      rcases he with he | he
      · exact Or.inl ⟨_, he⟩
      · exact Or.inr he
    · exact ih _ e he

theorem mem_lastPoll (m : Machine) (t : List Event) (n k : Nat) (e : Event)
    (he : e ∈ lastPoll m t n k) : ∃ v, e = Event.inb (COM1 + 5) v := by
  unfold lastPoll at he
  split at he
  · simp only [List.mem_singleton] at he
    exact ⟨_, he⟩
  · simp at he

/-! ## `uartgetc` -/

theorem uartgetc_absent (m : Machine) (s : State) (h : s.uart = 0) :
    uartgetc m s = (-1, s) := by
  simp [uartgetc, h]

theorem uartgetc_uart (m : Machine) (s : State) : (uartgetc m s).2.uart = s.uart := by
  unfold uartgetc
  split
  · rfl
  · split <;> rfl

theorem uartgetc_nodata (m : Machine) (s : State) (h : s.uart ≠ 0)
    (hb : (inb m (COM1 + 5) s).1 &&& 0x01 = 0) :
    uartgetc m s = (-1, (inb m (COM1 + 5) s).2) := by
  simp only [uartgetc, h, if_false, hb, if_true]

theorem uartgetc_data (m : Machine) (s : State) (h : s.uart ≠ 0)
    (hb : (inb m (COM1 + 5) s).1 &&& 0x01 ≠ 0) :
    uartgetc m s = (((inb m (COM1 + 0) (inb m (COM1 + 5) s).2).1 : Int),
      (inb m (COM1 + 0) (inb m (COM1 + 5) s).2).2) := by
  simp only [uartgetc, h, if_false, hb]

/-! ## `uartinit` -/

theorem uartinit_absent (m : Machine) (s : State)
    (hp : (inb m (COM1 + 5) (uartinit_config s)).1 = 0xFF) :
    uartinit m s = (inb m (COM1 + 5) (uartinit_config s)).2 := by
  simp only [uartinit, hp, if_true]

theorem uartinit_present (m : Machine) (s : State)
    (hp : (inb m (COM1 + 5) (uartinit_config s)).1 ≠ 0xFF) :
    uartinit m s = uartinit_announce m banner
      (ioapicenable m.IRQ_COM1 0
        (inb m (COM1 + 0)
          (inb m (COM1 + 2)
            { (inb m (COM1 + 5) (uartinit_config s)).2 with uart := 1 }).2).2) := by
  simp only [uartinit, hp, if_false]

theorem uartinit_announce_uart (m : Machine) (p : List Int) :
    ∀ s, (uartinit_announce m p s).uart = s.uart := by
  induction p with
  | nil => intro s; rfl
  | cons c p ih =>
    intro s
    simp only [uartinit_announce]
    split
    · rfl
    · rw [ih, uartputc_uart]

theorem uartinit_uart (m : Machine) (s : State) :
    (uartinit m s).uart = s.uart ∨ (uartinit m s).uart = 1 := by
  by_cases hp : (inb m (COM1 + 5) (uartinit_config s)).1 = 0xFF
  · left; rw [uartinit_absent m s hp]; rfl
  · right; rw [uartinit_present m s hp, uartinit_announce_uart]; rfl

theorem uartinit_present_uart (m : Machine) (s : State)
    (hp : (inb m (COM1 + 5) (uartinit_config s)).1 ≠ 0xFF) :
    (uartinit m s).uart = 1 := by
  rw [uartinit_present m s hp, uartinit_announce_uart]; rfl

/-! ## Sequences of operations -/

theorem run_append (m : Machine) (a b : List Op) :
    ∀ s, run m (a ++ b) s = run m b (run m a s) := by
  induction a with
  | nil => intro s; rfl
  | cons o a ih => intro s; exact ih (step m o s)

theorem step_keeps_present (m : Machine) (o : Op) (s : State) (h : s.uart ≠ 0) :
    (step m o s).uart ≠ 0 := by
  cases o with
  | uartinit =>
    rcases uartinit_uart m s with h1 | h1
    · simpa [step, h1] using h
    · simp [step, h1]
  | uartputc c => simpa [step, uartputc_uart] using h
  | uartgetc => simpa [step, uartgetc_uart] using h

theorem run_keeps_present (m : Machine) (ops : List Op) :
    ∀ s, s.uart ≠ 0 → (run m ops s).uart ≠ 0 := by
  induction ops with
  | nil => intro s h; exact h
  | cons o ops ih => intro s h; exact ih _ (step_keeps_present m o s h)

theorem run_absent (m : Machine) (ops : List Op) :
    ∀ s, s.uart = 0 → (∀ o ∈ ops, o ≠ Op.uartinit) → run m ops s = s := by
  induction ops with
  | nil => intro s _ _; rfl
  | cons o ops ih =>
    intro s h hops
    have hs : step m o s = s := by
      cases o with
      | uartinit => exact absurd rfl (hops _ (List.mem_cons_self _ _))
      | uartputc c => exact uartputc_absent m c s h
      | uartgetc => simp [step, uartgetc_absent m s h]
    simp only [run, hs]
    exact ih s h (fun o ho => hops o (List.mem_cons_of_mem _ ho))

/-! ## The claims -/

/-- C1: when the Line-Status-Register read made by `uartinit` returns 0xFF
and `uart` was 0 before, `uartinit` aborts: `uart` is still 0 and the events
of the call are exactly the seven configuration writes followed by the one
read of offset +5; there is no read of +2 or +0, no interrupt registration,
no delay, and the only write to +0 is the divisor byte (no banner byte). -/
theorem uartinit_probe_absent (m : Machine) (s : State) (h0 : s.uart = 0)
    (hp : (inb m (COM1 + 5) (uartinit_config s)).1 = 0xFF) :
    (uartinit m s).uart = 0 ∧
    (uartinit m s).trace = s.trace ++ callTrace s (uartinit m s) ∧
    callTrace s (uartinit m s) =
      [Event.outb (COM1 + 2) 0x00, Event.outb (COM1 + 3) 0x80, Event.outb (COM1 + 0) 0x0C,
       Event.outb (COM1 + 1) 0x00, Event.outb (COM1 + 3) 0x03, Event.outb (COM1 + 4) 0x00,
       Event.outb (COM1 + 1) 0x01, Event.inb (COM1 + 5) 0xFF] ∧
    readsOf (COM1 + 2) (callTrace s (uartinit m s)) = [] ∧
    readsOf (COM1 + 0) (callTrace s (uartinit m s)) = [] ∧
    irqRegs (callTrace s (uartinit m s)) = [] ∧
    delaysOf (callTrace s (uartinit m s)) = [] ∧
    writesTo (COM1 + 0) (callTrace s (uartinit m s)) = [0x0C] := by
  have hv : m.dev (s.trace ++ configTrace) (COM1 + 5) % 256 = 0xFF := by
    simpa [uartinit_config_trace] using hp
  have ht : (uartinit m s).trace = s.trace ++
      [Event.outb (COM1 + 2) 0x00, Event.outb (COM1 + 3) 0x80, Event.outb (COM1 + 0) 0x0C,
       Event.outb (COM1 + 1) 0x00, Event.outb (COM1 + 3) 0x03, Event.outb (COM1 + 4) 0x00,
       Event.outb (COM1 + 1) 0x01, Event.inb (COM1 + 5) 0xFF] := by
    rw [uartinit_absent m s hp, inb_trace, uartinit_config_trace, hv]
    simp [configTrace]
  have hc := callTrace_append s (uartinit m s) _ ht
  refine ⟨?_, ?_, hc, ?_, ?_, ?_, ?_, ?_⟩
  · rw [uartinit_absent m s hp]; simpa [uartinit_config_uart] using h0
  · rw [hc]; exact ht
  all_goals rw [hc]; simp [COM1]

/-- Witness for C1: the absent device, from the initial state. -/
theorem uartinit_probe_absent_witness :
    (⟨0, []⟩ : State).uart = 0 ∧
    (inb absentMachine (COM1 + 5) (uartinit_config ⟨0, []⟩)).1 = 0xFF ∧
    (uartinit absentMachine ⟨0, []⟩).uart = 0 ∧
    callTrace ⟨0, []⟩ (uartinit absentMachine ⟨0, []⟩) =
      [Event.outb (COM1 + 2) 0x00, Event.outb (COM1 + 3) 0x80, Event.outb (COM1 + 0) 0x0C,
       Event.outb (COM1 + 1) 0x00, Event.outb (COM1 + 3) 0x03, Event.outb (COM1 + 4) 0x00,
       Event.outb (COM1 + 1) 0x01, Event.inb (COM1 + 5) 0xFF] :=
  ⟨rfl, rfl,
   (uartinit_probe_absent absentMachine ⟨0, []⟩ rfl rfl).1,
   (uartinit_probe_absent absentMachine ⟨0, []⟩ rfl rfl).2.2.1⟩

/-- C2: while `uart` is 0, `uartputc` returns the state unchanged (no port
read, no port write, no delay) and `uartgetc` returns -1 with the state
unchanged, for every argument and device; so any sequence of such calls
leaves the state, trace included, as it was, and `uart` stays 0. -/
theorem absent_calls_are_noops (m : Machine) (c : Int) (s : State) (h : s.uart = 0) :
    uartputc m c s = s ∧
    uartgetc m s = (-1, s) ∧
    callTrace s (uartputc m c s) = [] ∧
    callTrace s (uartgetc m s).2 = [] ∧
    (∀ ops : List Op, (∀ o ∈ ops, o ≠ Op.uartinit) →
      run m ops s = s ∧ callTrace s (run m ops s) = [] ∧ (run m ops s).uart = 0) := by
  refine ⟨uartputc_absent m c s h, uartgetc_absent m s h, ?_, ?_, ?_⟩
  · rw [uartputc_absent m c s h]; simp [callTrace]
  · rw [uartgetc_absent m s h]; simp [callTrace]
  · intro ops hops
    rw [run_absent m ops s h hops]
    exact ⟨rfl, by simp [callTrace], h⟩

/-- Witness for C2: the state left by `uartinit` on the absent device. -/
theorem absent_calls_are_noops_witness :
    (uartinit absentMachine ⟨0, []⟩).uart = 0 ∧
    uartputc absentMachine 65 (uartinit absentMachine ⟨0, []⟩)
      = uartinit absentMachine ⟨0, []⟩ ∧
    uartgetc absentMachine (uartinit absentMachine ⟨0, []⟩)
      = (-1, uartinit absentMachine ⟨0, []⟩) :=
  ⟨rfl,
   (absent_calls_are_noops absentMachine 65 (uartinit absentMachine ⟨0, []⟩) rfl).1,
   (absent_calls_are_noops absentMachine 65 (uartinit absentMachine ⟨0, []⟩) rfl).2.1⟩

/-- C6: with `uart` nonzero, `uartgetc` reads the Line-Status-Register
exactly once; when bit 0x01 of that value is 0 it returns -1 and that read is
its only event; when the bit is 1 it returns the byte obtained by one read of
offset +0, a value in 0..255 and so never -1, and its events are exactly
those two reads.  In both cases there is no port write, no delay and no
interrupt registration, and `uart` is unchanged. -/
theorem uartgetc_present (m : Machine) (s : State) (h : s.uart ≠ 0) :
    (uartgetc m s).2.trace = s.trace ++ callTrace s (uartgetc m s).2 ∧
    readsOf (COM1 + 5) (callTrace s (uartgetc m s).2) = [(inb m (COM1 + 5) s).1] ∧
    ((inb m (COM1 + 5) s).1 &&& 0x01 = 0 →
      (uartgetc m s).1 = -1 ∧
      callTrace s (uartgetc m s).2 = [Event.inb (COM1 + 5) (inb m (COM1 + 5) s).1]) ∧
    ((inb m (COM1 + 5) s).1 &&& 0x01 ≠ 0 →
      (uartgetc m s).1 = ((inb m (COM1 + 0) (inb m (COM1 + 5) s).2).1 : Int) ∧
      callTrace s (uartgetc m s).2 =
        [Event.inb (COM1 + 5) (inb m (COM1 + 5) s).1,
         Event.inb (COM1 + 0) (inb m (COM1 + 0) (inb m (COM1 + 5) s).2).1] ∧
      0 ≤ (uartgetc m s).1 ∧ (uartgetc m s).1 ≤ 255 ∧ (uartgetc m s).1 ≠ -1) ∧
    portWrites (callTrace s (uartgetc m s).2) = [] ∧
    delaysOf (callTrace s (uartgetc m s).2) = [] ∧
    irqRegs (callTrace s (uartgetc m s).2) = [] ∧
    (uartgetc m s).2.uart = s.uart := by
  by_cases hb : (inb m (COM1 + 5) s).1 &&& 0x01 = 0
  · have hg := uartgetc_nodata m s h hb
    have hc : callTrace s (uartgetc m s).2 = [Event.inb (COM1 + 5) (inb m (COM1 + 5) s).1] := by
      apply callTrace_append; rw [hg]; simp
    refine ⟨?_, ?_, ?_, ?_, ?_, ?_, ?_, uartgetc_uart m s⟩
    · rw [hc, hg]; simp
    · rw [hc]; simp
    · intro _; exact ⟨by rw [hg], hc⟩
    · intro hb1; exact absurd hb hb1
    all_goals rw [hc]; simp
  · have hg := uartgetc_data m s h hb
    have hc : callTrace s (uartgetc m s).2 =
        [Event.inb (COM1 + 5) (inb m (COM1 + 5) s).1,
         Event.inb (COM1 + 0) (inb m (COM1 + 0) (inb m (COM1 + 5) s).2).1] := by
      apply callTrace_append; rw [hg]; simp
    have hlt : (inb m (COM1 + 0) (inb m (COM1 + 5) s).2).1 < 256 := by
      rw [inb_val]; exact Nat.mod_lt _ (by norm_num)
    have hr : (uartgetc m s).1 = ((inb m (COM1 + 0) (inb m (COM1 + 5) s).2).1 : Int) := by
      rw [hg]
    refine ⟨?_, ?_, ?_, ?_, ?_, ?_, ?_, uartgetc_uart m s⟩
    · rw [hc, hg]; simp
    · rw [hc]; simp [COM1]
    · intro hb0; exact absurd hb0 hb
    · intro _
      refine ⟨hr, hc, ?_, ?_, ?_⟩ <;> rw [hr] <;> omega
    all_goals rw [hc]; simp

/-- Witness for C6: a device with a byte 0xFF waiting; the call returns 255. -/
theorem uartgetc_present_witness :
    (⟨1, []⟩ : State).uart ≠ 0 ∧
    (inb dataMachine (COM1 + 5) ⟨1, []⟩).1 &&& 0x01 ≠ 0 ∧
    (uartgetc dataMachine ⟨1, []⟩).1 = 255 ∧
    callTrace ⟨1, []⟩ (uartgetc dataMachine ⟨1, []⟩).2 =
      [Event.inb (COM1 + 5) 0x61, Event.inb (COM1 + 0) 0xFF] :=
  ⟨by decide, by decide,
   ((uartgetc_present dataMachine ⟨1, []⟩ (by decide)).2.2.2.1 (by decide)).1,
   ((uartgetc_present dataMachine ⟨1, []⟩ (by decide)).2.2.2.1 (by decide)).2.1⟩

/-- C7: the flag `uart` is never reset.  `uartputc` and `uartgetc` leave it
unchanged for every input and device; `uartinit` either leaves it unchanged
or sets it to 1, so it never takes it from nonzero to 0; hence along any
sequence of operations begun with `uart = 0`, once the flag is nonzero it is
nonzero after every further operation. -/
theorem uart_flag_never_reset :
    (∀ (m : Machine) (c : Int) (s : State), (uartputc m c s).uart = s.uart) ∧
    (∀ (m : Machine) (s : State), (uartgetc m s).2.uart = s.uart) ∧
    (∀ (m : Machine) (s : State), (uartinit m s).uart = s.uart ∨ (uartinit m s).uart = 1) ∧
    (∀ (m : Machine) (s : State), s.uart ≠ 0 → (uartinit m s).uart ≠ 0) ∧
    (∀ (m : Machine) (ops1 ops2 : List Op) (s0 : State), s0.uart = 0 →
      (run m ops1 s0).uart ≠ 0 → (run m (ops1 ++ ops2) s0).uart ≠ 0) := by
  refine ⟨uartputc_uart, uartgetc_uart, uartinit_uart, ?_, ?_⟩
  · intro m s h
    exact step_keeps_present m Op.uartinit s h
  · intro m ops1 ops2 s0 _ h
    rw [run_append]
    exact run_keeps_present m ops2 _ h

/-- Witness for C7: a device that answers the first probe and then floats to
0xFF; a second `uartinit`, whose probe reads 0xFF, leaves the flag set. -/
theorem uart_flag_never_reset_witness :
    (⟨0, []⟩ : State).uart = 0 ∧
    (run unpluggedMachine [Op.uartinit] ⟨0, []⟩).uart ≠ 0 ∧
    (run unpluggedMachine ([Op.uartinit] ++ [Op.uartinit, Op.uartputc 65, Op.uartgetc])
      ⟨0, []⟩).uart ≠ 0 :=
  have h1 : (run unpluggedMachine [Op.uartinit] ⟨0, []⟩).uart ≠ 0 := by
    have h := uartinit_present_uart unpluggedMachine ⟨0, []⟩ (by decide)
    simp only [run, step, h]; decide
  ⟨rfl, h1, uart_flag_never_reset.2.2.2.2 unpluggedMachine [Op.uartinit]
    [Op.uartinit, Op.uartputc 65, Op.uartgetc] ⟨0, []⟩ rfl h1⟩

theorem mem_readsOf (p v : Nat) (tr : List Event) :
    v ∈ readsOf p tr ↔ Event.inb p v ∈ tr := by
  induction tr with
  | nil => simp
  | cons e tr ih =>
    cases e with
    | inb q w =>
      by_cases hq : q = p
      · subst hq; simp [ih]
      · simp only [readsOf_inb, writesTo_outb, hq, if_false, ih, List.mem_cons, Event.inb.injEq,
          Event.outb.injEq]
        constructor
        · intro h; exact Or.inr h
        · rintro (⟨h, _⟩ | h)
          · exact absurd h.symm hq
          · exact h
    | outb q d => simp [ih]
    | microdelay us => simp [ih]
    | ioapicenable i c => simp [ih]

theorem mem_writesTo (p d : Nat) (tr : List Event) :
    d ∈ writesTo p tr ↔ Event.outb p d ∈ tr := by
  induction tr with
  | nil => simp
  | cons e tr ih =>
    cases e with
    | outb q w =>
      by_cases hq : q = p
      · subst hq; simp [ih]
      · simp only [readsOf_inb, writesTo_outb, hq, if_false, ih, List.mem_cons, Event.inb.injEq,
          Event.outb.injEq]
        constructor
        · intro h; exact Or.inr h
        · rintro (⟨h, _⟩ | h)
          · exact absurd h.symm hq
          · exact h
    | inb q v => simp [ih]
    | microdelay us => simp [ih]
    | ioapicenable i c => simp [ih]

theorem mem_portReads (r : Nat × Nat) (tr : List Event) :
    r ∈ portReads tr ↔ Event.inb r.1 r.2 ∈ tr := by
  induction tr with
  | nil => simp
  | cons e tr ih =>
    cases e with
    | inb q w => simp [ih, Prod.ext_iff]
    | outb q d => simp [ih]
    | microdelay us => simp [ih]
    | ioapicenable i c => simp [ih]

theorem mem_portWrites (r : Nat × Nat) (tr : List Event) :
    r ∈ portWrites tr ↔ Event.outb r.1 r.2 ∈ tr := by
  induction tr with
  | nil => simp
  | cons e tr ih =>
    cases e with
    | outb q w => simp [ih, Prod.ext_iff]
    | inb q d => simp [ih]
    | microdelay us => simp [ih]
    | ioapicenable i c => simp [ih]

theorem readsOf_polls_eq (m : Machine) (k : Nat) :
    ∀ t, readsOf (COM1 + 5) (polls m t k) = (List.range k).map (pollVal m t) := by
  induction k with
  | zero => intro t; simp [polls]
  | succ k ih =>
    intro t
    rw [polls, readsOf_append, ih, List.range_succ_eq_map]
    simp [pollStep, pollVal, Function.comp_def]

/-- The first ready poll is unique. -/
theorem first_ready_unique (f : Nat → Nat) (n k1 k2 : Nat) (h1 : k1 ≤ n) (h2 : k2 ≤ n)
    (f1 : ∀ j, j < k1 → f j &&& 0x20 = 0) (r1 : k1 < n → f k1 &&& 0x20 ≠ 0)
    (f2 : ∀ j, j < k2 → f j &&& 0x20 = 0) (r2 : k2 < n → f k2 &&& 0x20 ≠ 0) :
    k1 = k2 := by
  rcases Nat.lt_trichotomy k1 k2 with h | h | h
  · exact absurd (f2 k1 h) (r1 (by omega))
  · exact h
  · exact absurd (f1 k2 h) (r2 (by omega))

theorem uartputc_ready_at (m : Machine) (c : Int) (s : State) (h : s.uart ≠ 0) (k : Nat)
    (hk : k < 128) (hfail : ∀ j, j < k → pollVal m s.trace j &&& 0x20 = 0)
    (hready : pollVal m s.trace k &&& 0x20 ≠ 0) :
    (uartputc m c s).trace = s.trace ++ (polls m s.trace k ++
      [Event.inb (COM1 + 5) (pollVal m s.trace k), Event.outb (COM1 + 0) (c % 256).toNat]) := by
  obtain ⟨k1, hk1, f1, r1, _, ht⟩ := uartputc_spec m c s h
  have : k1 = k := first_ready_unique (pollVal m s.trace) 128 k1 k hk1 (by omega) f1 r1 hfail
    (fun _ => hready)
  subst this
  rw [ht]; simp [lastPoll, hk]

theorem uartputc_never_ready (m : Machine) (c : Int) (s : State) (h : s.uart ≠ 0)
    (hfail : ∀ j, j < 128 → pollVal m s.trace j &&& 0x20 = 0) :
    (uartputc m c s).trace = s.trace ++ (polls m s.trace 128 ++
      [Event.outb (COM1 + 0) (c % 256).toNat]) := by
  obtain ⟨k1, hk1, f1, r1, _, ht⟩ := uartputc_spec m c s h
  have : k1 = 128 := first_ready_unique (pollVal m s.trace) 128 k1 128 hk1 (le_refl _) f1 r1 hfail
    (fun hlt => absurd hlt (lt_irrefl _))
  subst this
  rw [ht]; simp [lastPoll]

/-- Every event of a transmit is a status read, a 10 µs delay or a write to
offset +0. -/
theorem uartputc_events (m : Machine) (c : Int) (s : State) :
    ∀ e ∈ callTrace s (uartputc m c s),
      (∃ v, e = Event.inb (COM1 + 5) v) ∨ (∃ d, e = Event.outb (COM1 + 0) d) ∨
        e = Event.microdelay 10 := by
  intro e he
  by_cases h : s.uart = 0
  · rw [uartputc_absent m c s h] at he; simp [callTrace] at he
  · obtain ⟨k, _, _, _, _, ht⟩ := uartputc_spec m c s h
    rw [callTrace_append s _ _ ht] at he
    simp only [List.mem_append, List.mem_singleton] at he
    rcases he with (he | he) | he
    · rcases mem_polls m k _ e he with h1 | h1
      · exact Or.inl h1
      · exact Or.inr (Or.inr h1)
    · exact Or.inl (mem_lastPoll m _ _ _ e he)
    · exact Or.inr (Or.inl ⟨_, he⟩)

theorem uartputc_trace_append (m : Machine) (c : Int) (s : State) :
    (uartputc m c s).trace = s.trace ++ callTrace s (uartputc m c s) := by
  by_cases h : s.uart = 0
  · rw [uartputc_absent m c s h]; simp [callTrace]
  · obtain ⟨k, _, _, _, _, ht⟩ := uartputc_spec m c s h
    rw [callTrace_append s _ _ ht]; exact ht

/-- Every event of a receive poll is a read of offset +5 or of offset +0. -/
theorem uartgetc_events (m : Machine) (s : State) :
    ∀ e ∈ callTrace s (uartgetc m s).2,
      (∃ v, e = Event.inb (COM1 + 5) v) ∨ (∃ v, e = Event.inb (COM1 + 0) v) := by
  intro e he
  by_cases h : s.uart = 0
  · rw [uartgetc_absent m s h] at he; simp [callTrace] at he
  · by_cases hb : (inb m (COM1 + 5) s).1 &&& 0x01 = 0
    · rw [uartgetc_nodata m s h hb] at he
      simp [callTrace] at he
      exact Or.inl ⟨_, he⟩
    · rw [uartgetc_data m s h hb] at he
      simp [callTrace] at he
      rcases he with he | he
      · exact Or.inl ⟨_, he⟩
      · exact Or.inr ⟨_, he⟩

theorem portReads_polls (m : Machine) (k : Nat) (t : List Event) :
    ∀ r ∈ portReads (polls m t k), r.1 = COM1 + 5 := by
  intro r hr
  rw [mem_portReads] at hr
  rcases mem_polls m k t _ hr with ⟨v, hv⟩ | hv
  · simp only [Event.inb.injEq] at hv; exact hv.1
  · simp at hv

theorem byte_toNat (c : Int) (h0 : 0 ≤ c) (h1 : c < 256) : ((c % 256).toNat : Int) = c := by
  omega

/-- C5: with `uart` nonzero, for every argument and device the events of
`uartputc(c)` are some status reads and delays followed by exactly one port
write, which is the last event and writes the low byte of `c` (`c` itself
for a byte) to offset +0; before it there are at most 128 reads, all of
offset +5, and no write.  This holds on the give-up path (128 failed polls)
as on the ready path (a poll that saw bit 0x20). -/
theorem uartputc_present (m : Machine) (c : Int) (s : State) (h : s.uart ≠ 0) :
    ∃ pre : List Event,
      (uartputc m c s).trace = s.trace ++ callTrace s (uartputc m c s) ∧
      callTrace s (uartputc m c s) = pre ++ [Event.outb (COM1 + 0) (c % 256).toNat] ∧
      portWrites pre = [] ∧
      (∀ r ∈ portReads pre, r.1 = COM1 + 5) ∧
      (portReads pre).length ≤ 128 ∧
      (readsOf (COM1 + 5) pre).length ≤ 128 ∧
      portWrites (callTrace s (uartputc m c s)) = [(COM1 + 0, (c % 256).toNat)] ∧
      (0 ≤ c → c < 256 → ((c % 256).toNat : Int) = c) ∧
      ((∀ j, j < 128 → pollVal m s.trace j &&& 0x20 = 0) → pre = polls m s.trace 128) ∧
      (∀ k, k < 128 → (∀ j, j < k → pollVal m s.trace j &&& 0x20 = 0) →
        pollVal m s.trace k &&& 0x20 ≠ 0 →
        pre = polls m s.trace k ++ [Event.inb (COM1 + 5) (pollVal m s.trace k)]) := by
  obtain ⟨k, hk, hfail, hready, _, ht⟩ := uartputc_spec m c s h
  have hc := callTrace_append s _ _ ht
  have hlen : (readsOf (COM1 + 5) (polls m s.trace k ++ lastPoll m s.trace 128 k)).length
      ≤ 128 := by
    rw [readsOf_append, List.length_append, readsOf_polls]
    unfold lastPoll
    split
    · simp; omega
    · simp; omega
  have hall : ∀ r ∈ portReads (polls m s.trace k ++ lastPoll m s.trace 128 k),
      r.1 = COM1 + 5 := by
    intro r hr
    rw [portReads_append, List.mem_append] at hr
    rcases hr with hr | hr
    · exact portReads_polls m k _ r hr
    · rw [mem_portReads] at hr
      obtain ⟨v, hv⟩ := mem_lastPoll m _ _ _ _ hr
      simp only [Event.inb.injEq] at hv; exact hv.1
  have hpw : portWrites (polls m s.trace k ++ lastPoll m s.trace 128 k) = [] := by
    rw [portWrites_append, portWrites_polls]
    unfold lastPoll
    split <;> simp
  have hprl : (portReads (polls m s.trace k ++ lastPoll m s.trace 128 k)).length ≤ 128 := by
    have e : portReads (polls m s.trace k ++ lastPoll m s.trace 128 k)
        = (readsOf (COM1 + 5) (polls m s.trace k ++ lastPoll m s.trace 128 k)).map
            (fun v => (COM1 + 5, v)) := by
      generalize polls m s.trace k ++ lastPoll m s.trace 128 k = tr at hall
      induction tr with
      | nil => simp
      | cons e tr ih =>
        cases e with
        | inb q v =>
          have hq : q = COM1 + 5 := hall (q, v) (by simp)
          subst hq
          have := ih (fun r hr => hall r (by simp [hr]))
          simp [this]
        | outb q d => simpa using ih (fun r hr => hall r (by simpa using hr))
        | microdelay us => simpa using ih (fun r hr => hall r (by simpa using hr))
        | ioapicenable i c => simpa using ih (fun r hr => hall r (by simpa using hr))
    rw [e, List.length_map]; exact hlen
  refine ⟨polls m s.trace k ++ lastPoll m s.trace 128 k, ?_, ?_, hpw, hall, hprl, hlen, ?_,
    byte_toNat c, ?_, ?_⟩
  · rw [hc]; exact ht
  · exact hc
  · rw [hc, portWrites_append, hpw]; simp
  · intro hf
    have : k = 128 := first_ready_unique (pollVal m s.trace) 128 k 128 hk (le_refl _) hfail
      hready hf (fun hlt => absurd hlt (lt_irrefl _))
    subst this
    simp [lastPoll]
  · intro k2 hk2 f2 r2
    have : k = k2 := first_ready_unique (pollVal m s.trace) 128 k k2 hk (by omega) hfail
      hready f2 (fun _ => r2)
    subst this
    simp [lastPoll, hk2]

theorem pollVal_busy (j : Nat) : ∀ t, pollVal busyMachine t j = 0 := by
  induction j with
  | zero => intro t; rfl
  | succ j ih => intro t; rw [pollVal, ih]

/-- Witness for C5: the transmitter that never becomes empty; after 128
failed polls the byte is written all the same. -/
theorem uartputc_present_witness :
    (⟨1, []⟩ : State).uart ≠ 0 ∧
    ∃ pre : List Event,
      callTrace ⟨1, []⟩ (uartputc busyMachine 65 ⟨1, []⟩) = pre ++ [Event.outb (COM1 + 0) 65] ∧
      portWrites pre = [] ∧ (readsOf (COM1 + 5) pre).length ≤ 128 ∧
      pre = polls busyMachine [] 128 :=
  match uartputc_present busyMachine 65 ⟨1, []⟩ (by decide) with
  | ⟨pre, _, h2, h3, _, _, h6, _, _, h9, _⟩ =>
    ⟨by decide, pre, h2, h3, h6, h9 (fun j _ => by rw [pollVal_busy]; rfl)⟩

theorem uartputc_counts (m : Machine) (c : Int) (s : State) (h : s.uart ≠ 0) :
    ∃ k, k ≤ 128 ∧ (∀ j, j < k → pollVal m s.trace j &&& 0x20 = 0) ∧
      (k < 128 → pollVal m s.trace k &&& 0x20 ≠ 0) ∧
      delaysOf (callTrace s (uartputc m c s)) = List.replicate k 10 ∧
      readsOf (COM1 + 5) (callTrace s (uartputc m c s))
        = (List.range (if k < 128 then k + 1 else k)).map (pollVal m s.trace) := by
  obtain ⟨k, hk, hfail, hready, _, ht⟩ := uartputc_spec m c s h
  have hc := callTrace_append s _ _ ht
  refine ⟨k, hk, hfail, hready, ?_, ?_⟩
  · rw [hc]
    simp only [delaysOf_append, delaysOf_polls, delaysOf_outb, delaysOf_nil, List.append_nil]
    unfold lastPoll
    split <;> simp
  · rw [hc]
    simp only [readsOf_append, readsOf_polls_eq, readsOf_outb, readsOf_nil, List.append_nil]
    unfold lastPoll
    split
    · simp [List.range_succ]
    · simp

/-- C8: with `uart` nonzero the wait loop of `uartputc` ends for every
device and stops at the first ready poll.  If status read number `k`
(1 ≤ k ≤ 128) is the first with bit 0x20 set, the call makes exactly `k`
status reads and `k - 1` delays, each `microdelay(10)`, and then writes; if
none of the 128 reads has the bit set it makes exactly 128 reads and 128
delays and then writes.  The status values read are the device's answers
`pollVal`; every delay is 10 µs, there are at most 128 of them, so the total
is at most 1280 µs, and it is 0 when the first poll is ready. -/
theorem uartputc_wait_bounded (m : Machine) (c : Int) (s : State) (h : s.uart ≠ 0) :
    (∀ k, 1 ≤ k → k ≤ 128 → (∀ j, j < k - 1 → pollVal m s.trace j &&& 0x20 = 0) →
      pollVal m s.trace (k - 1) &&& 0x20 ≠ 0 →
      callTrace s (uartputc m c s) = polls m s.trace (k - 1) ++
        [Event.inb (COM1 + 5) (pollVal m s.trace (k - 1)),
         Event.outb (COM1 + 0) (c % 256).toNat] ∧
      (readsOf (COM1 + 5) (callTrace s (uartputc m c s))).length = k ∧
      delaysOf (callTrace s (uartputc m c s)) = List.replicate (k - 1) 10) ∧
    ((∀ j, j < 128 → pollVal m s.trace j &&& 0x20 = 0) →
      callTrace s (uartputc m c s) = polls m s.trace 128 ++
        [Event.outb (COM1 + 0) (c % 256).toNat] ∧
      (readsOf (COM1 + 5) (callTrace s (uartputc m c s))).length = 128 ∧
      delaysOf (callTrace s (uartputc m c s)) = List.replicate 128 10) ∧
    readsOf (COM1 + 5) (callTrace s (uartputc m c s))
      = (List.range (readsOf (COM1 + 5) (callTrace s (uartputc m c s))).length).map
          (pollVal m s.trace) ∧
    (∀ d ∈ delaysOf (callTrace s (uartputc m c s)), d = 10) ∧
    (delaysOf (callTrace s (uartputc m c s))).length ≤ 128 ∧
    (delaysOf (callTrace s (uartputc m c s))).sum ≤ 1280 ∧
    (pollVal m s.trace 0 &&& 0x20 ≠ 0 →
      (delaysOf (callTrace s (uartputc m c s))).sum = 0) := by
  obtain ⟨k0, hk0, hfail0, hready0, hd0, hr0⟩ := uartputc_counts m c s h
  refine ⟨?_, ?_, ?_, ?_, ?_, ?_, ?_⟩
  · intro k hk1 hk hfail hready
    have ht := uartputc_ready_at m c s h (k - 1) (by omega) hfail hready
    have hc := callTrace_append s _ _ ht
    refine ⟨hc, ?_, ?_⟩
    · rw [hc, readsOf_append, List.length_append, readsOf_polls]
      simp; omega
    · rw [hc, delaysOf_append, delaysOf_polls]
      simp
  · intro hfail
    have ht := uartputc_never_ready m c s h hfail
    have hc := callTrace_append s _ _ ht
    refine ⟨hc, ?_, ?_⟩
    · rw [hc, readsOf_append, List.length_append, readsOf_polls]
      simp
    · rw [hc, delaysOf_append, delaysOf_polls]
      simp
  · rw [hr0]; simp
  · intro d hd
    rw [hd0] at hd
    exact List.eq_of_mem_replicate hd
  · rw [hd0]; simp; exact hk0
  · rw [hd0]; simp; omega
  · intro hready
    have : k0 = 0 := by
      by_contra hne
      exact hready (hfail0 0 (by omega))
    rw [hd0, this]; simp

/-- Witness for C8: a transmitter that becomes empty at the third status
read; three reads, two delays. -/
theorem uartputc_wait_bounded_witness :
    (⟨1, []⟩ : State).uart ≠ 0 ∧
    (∀ j, j < 3 - 1 → pollVal slowMachine [] j &&& 0x20 = 0) ∧
    pollVal slowMachine [] (3 - 1) &&& 0x20 ≠ 0 ∧
    callTrace ⟨1, []⟩ (uartputc slowMachine 65 ⟨1, []⟩) =
      [Event.inb (COM1 + 5) 0, Event.microdelay 10, Event.inb (COM1 + 5) 0,
       Event.microdelay 10, Event.inb (COM1 + 5) 0x20, Event.outb (COM1 + 0) 65] ∧
    (readsOf (COM1 + 5) (callTrace ⟨1, []⟩ (uartputc slowMachine 65 ⟨1, []⟩))).length = 3 ∧
    delaysOf (callTrace ⟨1, []⟩ (uartputc slowMachine 65 ⟨1, []⟩)) = [10, 10] :=
  have hf : ∀ j, j < 3 - 1 → pollVal slowMachine [] j &&& 0x20 = 0 := by
    intro j hj
    have : j = 0 ∨ j = 1 := by omega
    rcases this with rfl | rfl <;> decide
  have hr : pollVal slowMachine [] (3 - 1) &&& 0x20 ≠ 0 := by decide
  ⟨by decide, hf, hr,
   ((uartputc_wait_bounded slowMachine 65 ⟨1, []⟩ (by decide)).1 3 (by decide) (by decide)
      hf hr).1,
   ((uartputc_wait_bounded slowMachine 65 ⟨1, []⟩ (by decide)).1 3 (by decide) (by decide)
      hf hr).2.1,
   ((uartputc_wait_bounded slowMachine 65 ⟨1, []⟩ (by decide)).1 3 (by decide) (by decide)
      hf hr).2.2⟩

theorem readsOf_eq_nil (p : Nat) (tr : List Event) (h : ∀ v, Event.inb p v ∉ tr) :
    readsOf p tr = [] := by
  apply List.eq_nil_iff_forall_not_mem.mpr
  intro v hv
  exact h v ((mem_readsOf p v tr).mp hv)

theorem writesTo_eq_nil (p : Nat) (tr : List Event) (h : ∀ d, Event.outb p d ∉ tr) :
    writesTo p tr = [] := by
  apply List.eq_nil_iff_forall_not_mem.mpr
  intro d hd
  exact h d ((mem_writesTo p d tr).mp hd)

theorem portWrites_eq_nil (tr : List Event) (h : ∀ p d, Event.outb p d ∉ tr) :
    portWrites tr = [] := by
  apply List.eq_nil_iff_forall_not_mem.mpr
  intro r hr
  exact h r.1 r.2 ((mem_portWrites r tr).mp hr)

/-- A transmit never writes a port other than +0. -/
theorem uartputc_no_write (m : Machine) (c : Int) (s : State) (p : Nat) (hp : p ≠ COM1 + 0) :
    writesTo p (callTrace s (uartputc m c s)) = [] := by
  apply writesTo_eq_nil
  intro d hd
  rcases uartputc_events m c s _ hd with ⟨v, hv⟩ | ⟨d2, hd2⟩ | hv
  · simp at hv
  · simp only [Event.outb.injEq] at hd2; exact hp hd2.1
  · simp at hv

/-- A transmit never reads a port other than +5. -/
theorem uartputc_no_read (m : Machine) (c : Int) (s : State) (p : Nat) (hp : p ≠ COM1 + 5) :
    readsOf p (callTrace s (uartputc m c s)) = [] := by
  apply readsOf_eq_nil
  intro d hd
  rcases uartputc_events m c s _ hd with ⟨v, hv⟩ | ⟨d2, hd2⟩ | hv
  · simp only [Event.inb.injEq] at hv; exact hp hv.1
  · simp at hd2
  · simp at hv

/-- A receive poll never writes a port. -/
theorem uartgetc_no_write (m : Machine) (s : State) :
    portWrites (callTrace s (uartgetc m s).2) = [] := by
  apply portWrites_eq_nil
  intro p d hd
  rcases uartgetc_events m s _ hd with ⟨v, hv⟩ | ⟨v, hv⟩ <;> simp at hv

/-- A receive poll on a present UART reads the status register. -/
theorem uartgetc_reads_status (m : Machine) (s : State) (h : s.uart ≠ 0) :
    Event.inb (COM1 + 5) (inb m (COM1 + 5) s).1 ∈ callTrace s (uartgetc m s).2 := by
  by_cases hb : (inb m (COM1 + 5) s).1 &&& 0x01 = 0
  · rw [uartgetc_nodata m s h hb]; simp [callTrace]
  · rw [uartgetc_data m s h hb]; simp [callTrace]

/-- C9: for every input and device, every event of `uartputc` is a read of
offset +5, a write of offset +0 or a 10 µs delay (so it never reads +0 and
never writes +1, +2, +3 or +4), and every event of `uartgetc` is a read of
offset +5 or of offset +0 (so it never writes a port).  Hence a register and
direction touched by both is the read of +5; and with `uart` nonzero both
calls do make that read. -/
theorem transmit_receive_registers (m1 : Machine) (c : Int) (s1 : State)
    (m2 : Machine) (s2 : State) :
    (∀ e ∈ callTrace s1 (uartputc m1 c s1),
      (∃ v, e = Event.inb (COM1 + 5) v) ∨ (∃ d, e = Event.outb (COM1 + 0) d) ∨
        e = Event.microdelay 10) ∧
    (∀ e ∈ callTrace s2 (uartgetc m2 s2).2,
      (∃ v, e = Event.inb (COM1 + 5) v) ∨ (∃ v, e = Event.inb (COM1 + 0) v)) ∧
    readsOf (COM1 + 0) (callTrace s1 (uartputc m1 c s1)) = [] ∧
    writesTo (COM1 + 1) (callTrace s1 (uartputc m1 c s1)) = [] ∧
    writesTo (COM1 + 2) (callTrace s1 (uartputc m1 c s1)) = [] ∧
    writesTo (COM1 + 3) (callTrace s1 (uartputc m1 c s1)) = [] ∧
    writesTo (COM1 + 4) (callTrace s1 (uartputc m1 c s1)) = [] ∧
    portWrites (callTrace s2 (uartgetc m2 s2).2) = [] ∧
    (∀ e1 ∈ callTrace s1 (uartputc m1 c s1), ∀ e2 ∈ callTrace s2 (uartgetc m2 s2).2,
      access e1 = access e2 → access e1 = some (COM1 + 5, false)) ∧
    (s1.uart ≠ 0 → s2.uart ≠ 0 →
      (∃ e1 ∈ callTrace s1 (uartputc m1 c s1), access e1 = some (COM1 + 5, false)) ∧
      (∃ e2 ∈ callTrace s2 (uartgetc m2 s2).2, access e2 = some (COM1 + 5, false))) := by
  refine ⟨uartputc_events m1 c s1, uartgetc_events m2 s2,
    uartputc_no_read m1 c s1 _ (by decide), uartputc_no_write m1 c s1 _ (by decide),
    uartputc_no_write m1 c s1 _ (by decide), uartputc_no_write m1 c s1 _ (by decide),
    uartputc_no_write m1 c s1 _ (by decide), uartgetc_no_write m2 s2, ?_, ?_⟩
  · intro e1 h1 e2 h2 heq
    rcases uartputc_events m1 c s1 e1 h1 with ⟨v, hv⟩ | ⟨d, hd⟩ | hv
    · rw [hv]; rfl
    · rcases uartgetc_events m2 s2 e2 h2 with ⟨w, hw⟩ | ⟨w, hw⟩ <;>
        · rw [hd, hw] at heq; simp [access] at heq
    · rcases uartgetc_events m2 s2 e2 h2 with ⟨w, hw⟩ | ⟨w, hw⟩ <;>
        · rw [hv, hw] at heq; simp [access] at heq
  · intro h1 h2
    constructor
    · obtain ⟨k, hk, _, _, _, ht⟩ := uartputc_spec m1 c s1 h1
      rw [callTrace_append s1 _ _ ht]
      cases k with
      | zero =>
        exact ⟨Event.inb (COM1 + 5) (pollVal m1 s1.trace 0), by simp [lastPoll, polls], rfl⟩
      | succ k =>
        exact ⟨Event.inb (COM1 + 5) (m1.dev s1.trace (COM1 + 5) % 256),
          by simp [polls, pollStep], rfl⟩
    · exact ⟨Event.inb (COM1 + 5) (inb m2 (COM1 + 5) s2).1, uartgetc_reads_status m2 s2 h2, rfl⟩

/-- Witness for C9: both calls on a present, idle UART read offset +5. -/
theorem transmit_receive_registers_witness :
    (⟨1, []⟩ : State).uart ≠ 0 ∧
    (∃ e1 ∈ callTrace ⟨1, []⟩ (uartputc idleMachine 65 ⟨1, []⟩),
      access e1 = some (COM1 + 5, false)) ∧
    (∃ e2 ∈ callTrace ⟨1, []⟩ (uartgetc idleMachine ⟨1, []⟩).2,
      access e2 = some (COM1 + 5, false)) :=
  ⟨by decide,
   ((transmit_receive_registers idleMachine 65 ⟨1, []⟩ idleMachine ⟨1, []⟩).2.2.2.2.2.2.2.2.2
      (by decide) (by decide)).1,
   ((transmit_receive_registers idleMachine 65 ⟨1, []⟩ idleMachine ⟨1, []⟩).2.2.2.2.2.2.2.2.2
      (by decide) (by decide)).2⟩

/-! ## The banner loop -/

/-- The only port write of a transmit on a present UART is the byte to +0. -/
theorem uartputc_portWrites (m : Machine) (c : Int) (s : State) (h : s.uart ≠ 0) :
    portWrites (callTrace s (uartputc m c s)) = [(COM1 + 0, (c % 256).toNat)] := by
  obtain ⟨k, _, _, _, _, ht⟩ := uartputc_spec m c s h
  rw [callTrace_append s _ _ ht]
  simp only [portWrites_append, portWrites_polls, portWrites_outb, portWrites_nil]
  unfold lastPoll
  split <;> simp

/-- The banner loop on a present UART: its events are those of transmits, and
its port writes are the low bytes of the characters before the first NUL,
each to offset +0. -/
theorem uartinit_announce_spec (m : Machine) (p : List Int) :
    ∀ s : State, s.uart ≠ 0 →
      ∃ rest : List Event,
        (uartinit_announce m p s).trace = s.trace ++ rest ∧
        (∀ e ∈ rest, (∃ v, e = Event.inb (COM1 + 5) v) ∨ (∃ d, e = Event.outb (COM1 + 0) d) ∨
          e = Event.microdelay 10) ∧
        portWrites rest
          = (p.takeWhile (fun c => decide (c ≠ 0))).map (fun c => (COM1 + 0, (c % 256).toNat)) := by
  induction p with
  | nil => intro s _; exact ⟨[], by simp [uartinit_announce], by simp, by simp⟩
  | cons c p ih =>
    intro s hs
    by_cases hc : c = 0
    · exact ⟨[], by simp [uartinit_announce, hc], by simp, by simp [hc]⟩
    · have hu : (uartputc m c s).uart ≠ 0 := by rw [uartputc_uart]; exact hs
      obtain ⟨rest, ht, hev, hw⟩ := ih (uartputc m c s) hu
      refine ⟨callTrace s (uartputc m c s) ++ rest, ?_, ?_, ?_⟩
      · simp only [uartinit_announce, hc, if_false]
        rw [ht, uartputc_trace_append m c s, List.append_assoc]
      · intro e he
        rw [List.mem_append] at he
        rcases he with he | he
        · exact uartputc_events m c s e he
        · exact hev e he
      · rw [portWrites_append, uartputc_portWrites m c s hs, hw]
        simp [hc]

theorem writesTo_eq_of_portWrites (p : Nat) (tr : List Event) :
    writesTo p tr
      = (portWrites tr).filterMap (fun r => if r.1 = p then some r.2 else none) := by
  induction tr with
  | nil => simp
  | cons e tr ih =>
    cases e with
    | outb q d =>
      by_cases hq : q = p <;> simp [hq, ih]
    | inb q v => simp [ih]
    | microdelay us => simp [ih]
    | ioapicenable i c => simp [ih]

theorem banner_bytes :
    (banner.takeWhile (fun c => decide (c ≠ 0))).map (fun c => (COM1 + 0, (c % 256).toNat))
      = ['x', 'v', '6', '.', '.', '.', '\n'].map (fun ch => (COM1 + 0, ch.toNat)) := by
  decide

/-- The events of `uartinit` on a present UART: configuration, probe,
acknowledgement, then the events of the banner loop. -/
theorem uartinit_present_trace (m : Machine) (s : State)
    (hp : (inb m (COM1 + 5) (uartinit_config s)).1 ≠ 0xFF) :
    ∃ ann : List Event,
      (uartinit m s).trace = s.trace ++ (configTrace ++
        [Event.inb (COM1 + 5) (inb m (COM1 + 5) (uartinit_config s)).1] ++
        (ackTrace m (s.trace ++ configTrace ++
          [Event.inb (COM1 + 5) (inb m (COM1 + 5) (uartinit_config s)).1]) ++ ann)) ∧
      (∀ e ∈ ann, (∃ v, e = Event.inb (COM1 + 5) v) ∨ (∃ d, e = Event.outb (COM1 + 0) d) ∨
        e = Event.microdelay 10) ∧
      portWrites ann = ['x', 'v', '6', '.', '.', '.', '\n'].map
        (fun ch => (COM1 + 0, ch.toNat)) := by
  obtain ⟨ann, ht, hev, hw⟩ := uartinit_announce_spec m banner
    (ioapicenable m.IRQ_COM1 0
        (inb m (COM1 + 0)
          (inb m (COM1 + 2)
            { (inb m (COM1 + 5) (uartinit_config s)).2 with uart := 1 }).2).2) (by simp)
  rw [banner_bytes] at hw
  refine ⟨ann, ?_, hev, hw⟩
  rw [uartinit_present m s hp, ht]
  simp [uartinit_config_trace, ackTrace, List.append_assoc]

/-- C3: when the Line-Status-Register probe of `uartinit` returns a value
other than 0xFF, `uart` is 1 afterwards, and the port writes made after the
probe are exactly the seven bytes 'x','v','6','.','.','.','\n' to offset +0,
in that order, whatever the later status reads return. -/
theorem uartinit_probe_present (m : Machine) (s : State)
    (hp : (inb m (COM1 + 5) (uartinit_config s)).1 ≠ 0xFF) :
    (uartinit m s).uart = 1 ∧
    ∃ rest : List Event,
      (uartinit m s).trace = s.trace ++ callTrace s (uartinit m s) ∧
      callTrace s (uartinit m s) = configTrace ++
        [Event.inb (COM1 + 5) (inb m (COM1 + 5) (uartinit_config s)).1] ++ rest ∧
      writesTo (COM1 + 0) rest = ['x', 'v', '6', '.', '.', '.', '\n'].map Char.toNat ∧
      portWrites rest = ['x', 'v', '6', '.', '.', '.', '\n'].map
        (fun ch => (COM1 + 0, ch.toNat)) := by
  refine ⟨uartinit_present_uart m s hp, ?_⟩
  obtain ⟨ann, ht, _, hw⟩ := uartinit_present_trace m s hp
  have hc := callTrace_append s _ _ ht
  have hpw : portWrites (ackTrace m (s.trace ++ configTrace ++
      [Event.inb (COM1 + 5) (inb m (COM1 + 5) (uartinit_config s)).1]) ++ ann)
      = ['x', 'v', '6', '.', '.', '.', '\n'].map (fun ch => (COM1 + 0, ch.toNat)) := by
    rw [portWrites_append, hw]; simp [ackTrace]
  refine ⟨_, ?_, hc, ?_, hpw⟩
  · rw [hc]; exact ht
  · rw [writesTo_eq_of_portWrites, hpw]; simp

/-- Witness for C3: a UART whose transmitter never becomes empty (status
always 0x00); the banner is written all the same. -/
theorem uartinit_probe_present_witness :
    (inb busyMachine (COM1 + 5) (uartinit_config ⟨0, []⟩)).1 ≠ 0xFF ∧
    (uartinit busyMachine ⟨0, []⟩).uart = 1 ∧
    ∃ rest : List Event,
      callTrace ⟨0, []⟩ (uartinit busyMachine ⟨0, []⟩) = configTrace ++
        [Event.inb (COM1 + 5) 0] ++ rest ∧
      writesTo (COM1 + 0) rest = [120, 118, 54, 46, 46, 46, 10] :=
  match uartinit_probe_present busyMachine ⟨0, []⟩ (by decide) with
  | ⟨h1, rest, _, h3, h4, _⟩ => ⟨by decide, h1, rest, h3, h4⟩

/-! ## A UART whose status is constant and ready -/

theorem uartputc_const (m : Machine) (v : Nat) (hv : ∀ h, m.dev h (COM1 + 5) % 256 = v)
    (hbit : v &&& 0x20 ≠ 0) (c : Int) (s : State) (h : s.uart ≠ 0) :
    (uartputc m c s).trace
      = s.trace ++ [Event.inb (COM1 + 5) v, Event.outb (COM1 + 0) (c % 256).toNat] := by
  have hr : pollVal m s.trace 0 &&& 0x20 ≠ 0 := by
    simp only [pollVal, hv]; exact hbit
  have ht := uartputc_ready_at m c s h 0 (by omega) (fun j hj => absurd hj (Nat.not_lt_zero j)) hr
  rw [ht]
  simp [polls, pollVal, hv]

theorem uartinit_announce_const (m : Machine) (v : Nat)
    (hv : ∀ h, m.dev h (COM1 + 5) % 256 = v) (hbit : v &&& 0x20 ≠ 0) (p : List Int) :
    ∀ s : State, s.uart ≠ 0 →
      (uartinit_announce m p s).trace = s.trace ++
        (p.takeWhile (fun c => decide (c ≠ 0))).flatMap
          (fun c => [Event.inb (COM1 + 5) v, Event.outb (COM1 + 0) (c % 256).toNat]) := by
  induction p with
  | nil => intro s _; simp [uartinit_announce]
  | cons c p ih =>
    intro s hs
    by_cases hc : c = 0
    · simp [uartinit_announce, hc]
    · have hu : (uartputc m c s).uart ≠ 0 := by rw [uartputc_uart]; exact hs
      simp only [uartinit_announce, hc, if_false]
      rw [ih _ hu, uartputc_const m v hv hbit c s hs]
      simp [hc]

theorem banner_events (v : Nat) :
    (banner.takeWhile (fun c => decide (c ≠ 0))).flatMap
        (fun c => [Event.inb (COM1 + 5) v, Event.outb (COM1 + 0) (c % 256).toNat])
      = [Event.inb (COM1 + 5) v, Event.outb (COM1 + 0) 'x'.toNat,
         Event.inb (COM1 + 5) v, Event.outb (COM1 + 0) 'v'.toNat,
         Event.inb (COM1 + 5) v, Event.outb (COM1 + 0) '6'.toNat,
         Event.inb (COM1 + 5) v, Event.outb (COM1 + 0) '.'.toNat,
         Event.inb (COM1 + 5) v, Event.outb (COM1 + 0) '.'.toNat,
         Event.inb (COM1 + 5) v, Event.outb (COM1 + 0) '.'.toNat,
         Event.inb (COM1 + 5) v, Event.outb (COM1 + 0) '\n'.toNat] := by
  rfl

/-- C4: on a device whose every Line-Status-Register read returns one value
`v`, with `v ≠ 0xFF` and bit 0x20 set, the events of `uartinit` are exactly:
the writes +2 ← 0x00, +3 ← 0x80, +0 ← 0x0C, +1 ← 0x00, +3 ← 0x03, +4 ← 0x00,
+1 ← 0x01, the read of +5, the reads of +2 and +0, the registration
`ioapicenable(IRQ_COM1, 0)`, and for each of the seven bytes of "xv6...\n"
one read of +5 followed by the write of the byte to +0; there is no delay,
the divisor bytes are `(115200/9600) & 0xFF` and `(115200/9600) >> 8`, and
`uart` is 1 at the end. -/
theorem uartinit_ready_trace (m : Machine) (s : State) (v : Nat)
    (hv : ∀ h, m.dev h (COM1 + 5) % 256 = v) (hne : v ≠ 0xFF) (hbit : v &&& 0x20 ≠ 0) :
    (uartinit m s).uart = 1 ∧
    (uartinit m s).trace = s.trace ++ callTrace s (uartinit m s) ∧
    (∃ iir rbr : Nat,
      iir = m.dev (s.trace ++ configTrace ++ [Event.inb (COM1 + 5) v]) (COM1 + 2) % 256 ∧
      rbr = m.dev (s.trace ++ configTrace ++ [Event.inb (COM1 + 5) v] ++
              [Event.inb (COM1 + 2) iir]) (COM1 + 0) % 256 ∧
      callTrace s (uartinit m s) =
        [Event.outb (COM1 + 2) 0x00, Event.outb (COM1 + 3) 0x80, Event.outb (COM1 + 0) 0x0C,
         Event.outb (COM1 + 1) 0x00, Event.outb (COM1 + 3) 0x03, Event.outb (COM1 + 4) 0x00,
         Event.outb (COM1 + 1) 0x01,
         Event.inb (COM1 + 5) v, Event.inb (COM1 + 2) iir, Event.inb (COM1 + 0) rbr,
         Event.ioapicenable m.IRQ_COM1 0,
         Event.inb (COM1 + 5) v, Event.outb (COM1 + 0) 'x'.toNat,
         Event.inb (COM1 + 5) v, Event.outb (COM1 + 0) 'v'.toNat,
         Event.inb (COM1 + 5) v, Event.outb (COM1 + 0) '6'.toNat,
         Event.inb (COM1 + 5) v, Event.outb (COM1 + 0) '.'.toNat,
         Event.inb (COM1 + 5) v, Event.outb (COM1 + 0) '.'.toNat,
         Event.inb (COM1 + 5) v, Event.outb (COM1 + 0) '.'.toNat,
         Event.inb (COM1 + 5) v, Event.outb (COM1 + 0) '\n'.toNat]) ∧
    delaysOf (callTrace s (uartinit m s)) = [] ∧
    irqRegs (callTrace s (uartinit m s)) = [(m.IRQ_COM1, 0)] ∧
    (0x0C : Nat) = (115200 / 9600) &&& 0xFF ∧ (0x00 : Nat) = (115200 / 9600) >>> 8 := by
  have hp : (inb m (COM1 + 5) (uartinit_config s)).1 ≠ 0xFF := by
    rw [inb_val, hv]; exact hne
  have ht : (uartinit m s).trace = s.trace ++
        [Event.outb (COM1 + 2) 0x00, Event.outb (COM1 + 3) 0x80, Event.outb (COM1 + 0) 0x0C,
         Event.outb (COM1 + 1) 0x00, Event.outb (COM1 + 3) 0x03, Event.outb (COM1 + 4) 0x00,
         Event.outb (COM1 + 1) 0x01,
         Event.inb (COM1 + 5) v,
         Event.inb (COM1 + 2)
           (m.dev (s.trace ++ configTrace ++ [Event.inb (COM1 + 5) v]) (COM1 + 2) % 256),
         Event.inb (COM1 + 0)
           (m.dev (s.trace ++ configTrace ++ [Event.inb (COM1 + 5) v] ++
              [Event.inb (COM1 + 2)
                (m.dev (s.trace ++ configTrace ++ [Event.inb (COM1 + 5) v]) (COM1 + 2) % 256)])
              (COM1 + 0) % 256),
         Event.ioapicenable m.IRQ_COM1 0,
         Event.inb (COM1 + 5) v, Event.outb (COM1 + 0) 'x'.toNat,
         Event.inb (COM1 + 5) v, Event.outb (COM1 + 0) 'v'.toNat,
         Event.inb (COM1 + 5) v, Event.outb (COM1 + 0) '6'.toNat,
         Event.inb (COM1 + 5) v, Event.outb (COM1 + 0) '.'.toNat,
         Event.inb (COM1 + 5) v, Event.outb (COM1 + 0) '.'.toNat,
         Event.inb (COM1 + 5) v, Event.outb (COM1 + 0) '.'.toNat,
         Event.inb (COM1 + 5) v, Event.outb (COM1 + 0) '\n'.toNat] := by
    rw [uartinit_present m s hp, uartinit_announce_const m v hv hbit banner _ (by simp),
      banner_events]
    simp [uartinit_config_trace, hv, configTrace, List.append_assoc]
  have hc := callTrace_append s _ _ ht
  refine ⟨uartinit_present_uart m s hp, ?_, ⟨_, _, rfl, rfl, hc⟩, ?_, ?_, by decide, by decide⟩
  · rw [hc]; exact ht
  · rw [hc]; simp
  · rw [hc]; simp

/-- Witness for C4: the idle UART (status always 0x60, other registers
reading 0), from the initial state. -/
theorem uartinit_ready_trace_witness :
    (∀ h, idleMachine.dev h (COM1 + 5) % 256 = 0x60) ∧
    (uartinit idleMachine ⟨0, []⟩).uart = 1 ∧
    callTrace ⟨0, []⟩ (uartinit idleMachine ⟨0, []⟩) =
      [Event.outb (COM1 + 2) 0x00, Event.outb (COM1 + 3) 0x80, Event.outb (COM1 + 0) 0x0C,
       Event.outb (COM1 + 1) 0x00, Event.outb (COM1 + 3) 0x03, Event.outb (COM1 + 4) 0x00,
       Event.outb (COM1 + 1) 0x01,
       Event.inb (COM1 + 5) 0x60, Event.inb (COM1 + 2) 0, Event.inb (COM1 + 0) 0,
       Event.ioapicenable 4 0,
       Event.inb (COM1 + 5) 0x60, Event.outb (COM1 + 0) 120,
       Event.inb (COM1 + 5) 0x60, Event.outb (COM1 + 0) 118,
       Event.inb (COM1 + 5) 0x60, Event.outb (COM1 + 0) 54,
       Event.inb (COM1 + 5) 0x60, Event.outb (COM1 + 0) 46,
       Event.inb (COM1 + 5) 0x60, Event.outb (COM1 + 0) 46,
       Event.inb (COM1 + 5) 0x60, Event.outb (COM1 + 0) 46,
       Event.inb (COM1 + 5) 0x60, Event.outb (COM1 + 0) 10] :=
  match uartinit_ready_trace idleMachine ⟨0, []⟩ 0x60 (fun _ => rfl) (by decide)
      (by decide) with
  | ⟨h1, _, ⟨iir, rbr, hi, hr, hc⟩, _⟩ =>
    ⟨fun _ => rfl, h1, by rw [hc, hr, hi]; rfl⟩

/-! ## The divisor latch -/

theorem latchAfter_of_not_lcr (b : Bool) (e : Event) (h : ∀ d, e ≠ Event.outb (COM1 + 3) d) :
    latchAfter b e = b := by
  cases e with
  | outb p d =>
    have hp : p ≠ COM1 + 3 := fun hp => h d (by rw [hp])
    simp [latchAfter, hp]
  | inb p v => rfl
  | microdelay us => rfl
  | ioapicenable i c => rfl

/-- A trace without a write to offset +3 leaves the latch as it was. -/
theorem latch_frame (tr : List Event) (h : ∀ d, Event.outb (COM1 + 3) d ∉ tr) (b : Bool) :
    latchRun b tr = b ∧ latchMarks b tr = tr.map (fun e => (b, e)) ∧
      whileLatched false tr = [] := by
  induction tr with
  | nil => exact ⟨rfl, rfl, rfl⟩
  | cons e tr ih =>
    have he : ∀ d, e ≠ Event.outb (COM1 + 3) d := fun d hd => h d (by simp [hd])
    have ht : ∀ d, Event.outb (COM1 + 3) d ∉ tr := fun d hd => h d (by simp [hd])
    obtain ⟨h1, h2, h3⟩ := ih ht
    refine ⟨?_, ?_, ?_⟩
    · simp only [latchRun, latchAfter_of_not_lcr b e he, h1]
    · simp only [latchMarks, latchAfter_of_not_lcr b e he, h2, List.map_cons]
    · simp only [whileLatched, latchAfter_of_not_lcr false e he, h3]
      simp

theorem latchRun_append (a r : List Event) :
    ∀ b, latchRun b (a ++ r) = latchRun (latchRun b a) r := by
  induction a with
  | nil => intro b; rfl
  | cons e a ih => intro b; exact ih (latchAfter b e)

theorem latchMarks_append (a r : List Event) :
    ∀ b, latchMarks b (a ++ r) = latchMarks b a ++ latchMarks (latchRun b a) r := by
  induction a with
  | nil => intro b; rfl
  | cons e a ih =>
    intro b
    show (b, e) :: latchMarks (latchAfter b e) (a ++ r) = _
    rw [ih (latchAfter b e)]
    rfl

theorem whileLatched_append (a r : List Event) :
    ∀ b, whileLatched b (a ++ r) = whileLatched b a ++ whileLatched (latchRun b a) r := by
  induction a with
  | nil => intro b; rfl
  | cons e a ih =>
    intro b
    have h := ih (latchAfter b e)
    show whileLatched b (e :: (a ++ r)) = _
    simp only [whileLatched, latchRun]
    split
    · rw [h]; rfl
    · exact h

theorem uartputc_no_lcr (m : Machine) (c : Int) (s : State) :
    ∀ d, Event.outb (COM1 + 3) d ∉ callTrace s (uartputc m c s) := by
  intro d hd
  rcases uartputc_events m c s _ hd with ⟨v, hv⟩ | ⟨d2, hd2⟩ | hv
  · simp at hv
  · simp [COM1] at hd2
  · simp at hv

theorem uartgetc_no_lcr (m : Machine) (s : State) :
    ∀ d, Event.outb (COM1 + 3) d ∉ callTrace s (uartgetc m s).2 := by
  intro d hd
  rcases uartgetc_events m s _ hd with ⟨v, hv⟩ | ⟨v, hv⟩ <;> simp at hv

/-- What follows the probe in `uartinit` never writes offset +3. -/
theorem uartinit_after_probe (m : Machine) (s : State) :
    ∃ rest : List Event,
      (uartinit m s).trace = s.trace ++ (configTrace ++
        [Event.inb (COM1 + 5) (inb m (COM1 + 5) (uartinit_config s)).1] ++ rest) ∧
      ∀ d, Event.outb (COM1 + 3) d ∉ rest := by
  by_cases hp : (inb m (COM1 + 5) (uartinit_config s)).1 = 0xFF
  · refine ⟨[], ?_, by simp⟩
    rw [uartinit_absent m s hp]
    simp [uartinit_config_trace, List.append_assoc]
  · obtain ⟨ann, ht, hev, _⟩ := uartinit_present_trace m s hp
    refine ⟨_, ht, ?_⟩
    intro d hd
    rw [List.mem_append] at hd
    rcases hd with hd | hd
    · simp [ackTrace] at hd
    · rcases hev _ hd with ⟨v, hv⟩ | ⟨d2, hd2⟩ | hv
      · simp at hv
      · simp [COM1] at hd2
      · simp at hv

/-- C10: divisor-latch bracketing.  Taking bit 7 of each value written to
offset +3 as the latch state (clear at the start), in the events of
`uartinit` on any device the events that happen while the latch is set are
exactly the two writes +0 ← 12 and +1 ← 0.  The call begins with +2 ← 0,
+3 ← 0x80, +0 ← 12, +1 ← 0, +3 ← 0x03, and every event after the write
+3 ← 0x03 (the writes +4 ← 0 and +1 ← 0x01, the probe, the acknowledgement
reads, every banner byte) happens with the latch clear; the latch is clear
when `uartinit` returns, whatever it was before.  `uartputc` and `uartgetc`
never write +3, so they leave the latch as it is and all their events happen
in the latch state they were called in. -/
theorem divisor_latch_bracketing (m : Machine) (s : State) :
    whileLatched false (callTrace s (uartinit m s))
      = [Event.outb (COM1 + 0) 12, Event.outb (COM1 + 1) 0] ∧
    (∀ b, latchRun b (callTrace s (uartinit m s)) = false) ∧
    (∃ rest : List Event,
      callTrace s (uartinit m s) =
        [Event.outb (COM1 + 2) 0x00, Event.outb (COM1 + 3) 0x80, Event.outb (COM1 + 0) 12,
         Event.outb (COM1 + 1) 0, Event.outb (COM1 + 3) 0x03,
         Event.outb (COM1 + 4) 0x00, Event.outb (COM1 + 1) 0x01,
         Event.inb (COM1 + 5) (inb m (COM1 + 5) (uartinit_config s)).1] ++ rest ∧
      latchMarks false (callTrace s (uartinit m s)) =
        [(false, Event.outb (COM1 + 2) 0x00), (false, Event.outb (COM1 + 3) 0x80),
         (true, Event.outb (COM1 + 0) 12), (true, Event.outb (COM1 + 1) 0),
         (true, Event.outb (COM1 + 3) 0x03),
         (false, Event.outb (COM1 + 4) 0x00), (false, Event.outb (COM1 + 1) 0x01),
         (false, Event.inb (COM1 + 5) (inb m (COM1 + 5) (uartinit_config s)).1)]
        ++ rest.map (fun e => (false, e)) ∧
      writesTo (COM1 + 3) rest = []) ∧
    (∀ (c : Int) (s1 : State) (b : Bool),
      writesTo (COM1 + 3) (callTrace s1 (uartputc m c s1)) = [] ∧
      latchRun b (callTrace s1 (uartputc m c s1)) = b ∧
      latchMarks b (callTrace s1 (uartputc m c s1))
        = (callTrace s1 (uartputc m c s1)).map (fun e => (b, e))) ∧
    (∀ (s1 : State) (b : Bool),
      writesTo (COM1 + 3) (callTrace s1 (uartgetc m s1).2) = [] ∧
      latchRun b (callTrace s1 (uartgetc m s1).2) = b ∧
      latchMarks b (callTrace s1 (uartgetc m s1).2)
        = (callTrace s1 (uartgetc m s1).2).map (fun e => (b, e))) := by
  obtain ⟨rest, ht, hno⟩ := uartinit_after_probe m s
  have hc := callTrace_append s _ _ ht
  obtain ⟨f1, f2, f3⟩ := latch_frame rest hno false
  have hr : ∀ b, latchRun b (configTrace ++
      [Event.inb (COM1 + 5) (inb m (COM1 + 5) (uartinit_config s)).1]) = false := by
    intro b; cases b <;> rfl
  refine ⟨?_, ?_, ⟨rest, ?_, ?_, writesTo_eq_nil _ _ hno⟩, ?_, ?_⟩
  · rw [hc, whileLatched_append, hr, f3]; rfl
  · intro b
    rw [hc, latchRun_append, hr, f1]
  · rw [hc]; rfl
  · rw [hc, latchMarks_append, hr, f2]; rfl
  · intro c s1 b
    obtain ⟨g1, g2, _⟩ := latch_frame _ (uartputc_no_lcr m c s1) b
    exact ⟨writesTo_eq_nil _ _ (uartputc_no_lcr m c s1), g1, g2⟩
  · intro s1 b
    obtain ⟨g1, g2, _⟩ := latch_frame _ (uartgetc_no_lcr m s1) b
    exact ⟨writesTo_eq_nil _ _ (uartgetc_no_lcr m s1), g1, g2⟩

end Uart
